import Mathlib

/-!
Verification development for the chat-view pipeline of this repository
(`src/pages/ChatView.tsx`): the stream decoder inside `fetchStream`, the
conversation-state operations (`handleSend`, `handleStop`, `deleteConversation`,
the history-window construction), and the content segmenter
(`renderMessageContent`).  All definitions are shallow embeddings of the
TypeScript source; strings are modelled as `List Char` and byte streams as
`List Nat`.
-/

namespace ChatView

/-- Shorthand: the character list of a string literal. -/
def lc (s : String) : List Char := s.data

/-- `startsWithL pat s` holds when `pat` is an initial segment of `s`
(models JavaScript `String.startsWith`). -/
def startsWithL : List Char → List Char → Bool
  | [], _ => true
  | _ :: _, [] => false
  | p :: ps, c :: cs => p == c && startsWithL ps cs

/-- `containsL pat s`: `pat` occurs as a contiguous substring of `s`. -/
def containsL (pat : List Char) : List Char → Bool
  | [] => startsWithL pat []
  | c :: cs => startsWithL pat (c :: cs) || containsL pat cs

/-- Whitespace as trimmed by JavaScript `String.trim` (the characters that
occur in practice: space, tab, newline, carriage return, form feed,
vertical tab). -/
def isWsChar (c : Char) : Bool :=
  c == ' ' || c == '\t' || c == '\n' || c == '\r' ||
  c == Char.ofNat 12 || c == Char.ofNat 11

/-- Model of JavaScript `String.trim`. -/
def trimL (s : List Char) : List Char :=
  ((s.dropWhile isWsChar).reverse.dropWhile isWsChar).reverse

-- ───────────────────────── UTF-8 stream decoder ─────────────────────────
-- Models `new TextDecoder()` with `{ stream: true }`: bytes are buffered at
-- the byte level, an incomplete trailing multi-byte sequence is carried over
-- to the next chunk.

/-- Number of bytes of the UTF-8 sequence started by lead byte `b`
(an invalid lead byte is consumed alone). -/
def seqLen (b : Nat) : Nat :=
  if b < 0x80 then 1
  else if b < 0xC0 then 1
  else if b < 0xE0 then 2
  else if b < 0xF0 then 3
  else if b < 0xF8 then 4
  else 1

/-- Is `b` a UTF-8 continuation byte? -/
def contB (b : Nat) : Bool := decide (0x80 ≤ b) && decide (b < 0xC0)

/-- The replacement character U+FFFD. -/
def repl : Char := Char.ofNat 0xFFFD

/-- Decode one complete UTF-8 sequence (already cut to its exact length);
invalid sequences decode to the replacement character. -/
def decodeOne : List Nat → Char
  | [b] => if b < 0x80 then Char.ofNat b else repl
  | [b0, b1] =>
    if contB b1 then Char.ofNat ((b0 - 0xC0) * 0x40 + (b1 - 0x80)) else repl
  | [b0, b1, b2] =>
    if contB b1 && contB b2 then
      Char.ofNat ((b0 - 0xE0) * 0x1000 + (b1 - 0x80) * 0x40 + (b2 - 0x80))
    else repl
  | [b0, b1, b2, b3] =>
    if contB b1 && contB b2 && contB b3 then
      Char.ofNat ((b0 - 0xF0) * 0x40000 + (b1 - 0x80) * 0x1000 +
        (b2 - 0x80) * 0x40 + (b3 - 0x80))
    else repl
  | _ => repl

/-- Fueled decoding loop: decode all complete UTF-8 sequences of the byte
list, return the decoded characters and the incomplete trailing sequence
(the decoder's pending bytes). -/
def decodeLoop : Nat → List Nat → List Char × List Nat
  | 0, bs => ([], bs)
  | _ + 1, [] => ([], [])
  | fuel + 1, b :: bs =>
    let n := seqLen b
    if (b :: bs).length < n then ([], b :: bs)
    else
      let c := decodeOne ((b :: bs).take n)
      let r := decodeLoop fuel ((b :: bs).drop n)
      (c :: r.1, r.2)

/-- Incremental UTF-8 decode of a byte list: decoded text plus pending
bytes. -/
def decodeBytes (bs : List Nat) : List Char × List Nat :=
  decodeLoop bs.length bs

/-- UTF-8 encoding of one character. -/
def encodeChar (c : Char) : List Nat :=
  let v := c.toNat
  if v < 0x80 then [v]
  else if v < 0x800 then [0xC0 + v / 0x40, 0x80 + v % 0x40]
  else if v < 0x10000 then
    [0xE0 + v / 0x1000, 0x80 + v / 0x40 % 0x40, 0x80 + v % 0x40]
  else
    [0xF0 + v / 0x40000, 0x80 + v / 0x1000 % 0x40,
     0x80 + v / 0x40 % 0x40, 0x80 + v % 0x40]

/-- UTF-8 encoding of a character sequence: the valid byte streams of the
stream-decoder claims are exactly the lists of this form. -/
def utf8Encode (s : List Char) : List Nat := s.flatMap encodeChar

theorem seqLen_pos (b : Nat) : 0 < seqLen b := by
  unfold seqLen; split_ifs <;> simp

/-- The fuel of `decodeLoop` is irrelevant once it covers the list length. -/
theorem decodeLoop_fuel (f₁ f₂ : Nat) (bs : List Nat)
    (h₁ : bs.length ≤ f₁) (h₂ : bs.length ≤ f₂) :
    decodeLoop f₁ bs = decodeLoop f₂ bs := by
  induction f₁ generalizing bs f₂ with
  | zero =>
    have : bs = [] := List.length_eq_zero.mp (Nat.le_zero.mp h₁)
    subst this
    cases f₂ <;> rfl
  | succ f ih =>
    cases bs with
    | nil => cases f₂ <;> rfl
    | cons b rest =>
      cases f₂ with
      | zero => exact absurd h₂ (by simp)
      | succ f₂' =>
        show (let n := seqLen b; _) = (let n := seqLen b; _)
        simp only [decodeLoop]
        split
        · rfl
        · have hlen : ((b :: rest).drop (seqLen b)).length ≤ f := by
            have := seqLen_pos b
            simp only [List.length_drop, List.length_cons]
            simp only [List.length_cons] at h₁
            omega
          have hlen₂ : ((b :: rest).drop (seqLen b)).length ≤ f₂' := by
            have := seqLen_pos b
            simp only [List.length_drop, List.length_cons]
            simp only [List.length_cons] at h₂
            omega
          rw [ih _ _ hlen hlen₂]

theorem decodeBytes_nil : decodeBytes [] = ([], []) := rfl

/-- Unfolding of `decodeBytes` when the bytes do not yet cover a complete
sequence. -/
theorem decodeBytes_pending (b : Nat) (bs : List Nat)
    (h : (b :: bs).length < seqLen b) :
    decodeBytes (b :: bs) = ([], b :: bs) := by
  unfold decodeBytes
  simp only [List.length_cons, decodeLoop]
  rw [if_pos (by simpa using h)]

/-- Unfolding of `decodeBytes` when a complete sequence is available. -/
theorem decodeBytes_step (b : Nat) (bs : List Nat)
    (h : seqLen b ≤ (b :: bs).length) :
    decodeBytes (b :: bs) =
      (decodeOne ((b :: bs).take (seqLen b)) :: (decodeBytes ((b :: bs).drop (seqLen b))).1,
       (decodeBytes ((b :: bs).drop (seqLen b))).2) := by
  unfold decodeBytes
  conv_lhs => simp only [List.length_cons, decodeLoop]
  rw [if_neg (by simpa using Nat.not_lt.mpr h)]
  have heq : decodeLoop bs.length ((b :: bs).drop (seqLen b)) =
      decodeLoop ((b :: bs).drop (seqLen b)).length ((b :: bs).drop (seqLen b)) := by
    apply decodeLoop_fuel
    · have := seqLen_pos b
      simp only [List.length_drop, List.length_cons]
      omega
    · exact Nat.le_refl _
  simp only [List.length_cons] at heq ⊢
  rw [heq]

/-- Chunk-boundary compositionality of the incremental UTF-8 decoder:
decoding `B₁ ++ B₂` equals decoding `B₁`, then feeding its pending bytes
followed by `B₂`. -/
theorem decodeBytes_append (B₁ B₂ : List Nat) :
    decodeBytes (B₁ ++ B₂) =
      ((decodeBytes B₁).1 ++ (decodeBytes ((decodeBytes B₁).2 ++ B₂)).1,
       (decodeBytes ((decodeBytes B₁).2 ++ B₂)).2) := by
  have main : ∀ f B₁ B₂, List.length B₁ ≤ f →
      decodeBytes (B₁ ++ B₂) =
        ((decodeBytes B₁).1 ++ (decodeBytes ((decodeBytes B₁).2 ++ B₂)).1,
         (decodeBytes ((decodeBytes B₁).2 ++ B₂)).2) := by
    intro f
    induction f with
    | zero =>
      intro B₁ B₂ h
      have : B₁ = [] := List.length_eq_zero.mp (Nat.le_zero.mp h)
      subst this
      simp [decodeBytes_nil]
    | succ f ih =>
      intro B₁ B₂ h
      cases B₁ with
      | nil => simp [decodeBytes_nil]
      | cons b bs =>
        by_cases hp : (b :: bs).length < seqLen b
        · rw [decodeBytes_pending b bs hp]
          rcases Nat.lt_or_ge ((b :: bs) ++ B₂).length (seqLen b) with hlt | hge
          · rw [show ((b :: bs) ++ B₂) = b :: (bs ++ B₂) by simp,
              decodeBytes_pending b (bs ++ B₂) (by simpa using hlt)]
            simp
          · simp
        · have hge : seqLen b ≤ (b :: bs).length := Nat.le_of_not_lt hp
          have hge₂ : seqLen b ≤ (b :: (bs ++ B₂)).length := by
            simp only [List.length_cons, List.length_append]
            simp only [List.length_cons] at hge
            omega
          clear hp
          have htake : (b :: (bs ++ B₂)).take (seqLen b) = (b :: bs).take (seqLen b) := by
            rw [show (b :: (bs ++ B₂)) = (b :: bs) ++ B₂ by simp]
            exact List.take_append_of_le_length hge
          have hdrop : (b :: (bs ++ B₂)).drop (seqLen b) = (b :: bs).drop (seqLen b) ++ B₂ := by
            rw [show (b :: (bs ++ B₂)) = (b :: bs) ++ B₂ by simp]
            exact List.drop_append_of_le_length hge
          rw [show ((b :: bs) ++ B₂) = b :: (bs ++ B₂) by simp,
            decodeBytes_step b (bs ++ B₂) hge₂, decodeBytes_step b bs hge,
            htake, hdrop]
          have hrec : ((b :: bs).drop (seqLen b)).length ≤ f := by
            have := seqLen_pos b
            simp only [List.length_drop, List.length_cons]
            simp only [List.length_cons] at h
            omega
          rw [ih ((b :: bs).drop (seqLen b)) B₂ hrec]
          simp
  exact main B₁.length B₁ B₂ (Nat.le_refl _)

-- ───────────────────────── line buffering ─────────────────────────
-- Models `const lines = buffer.split('\n'); buffer = lines.pop() || '';`:
-- the complete lines (everything before each newline) are processed, the
-- final fragment is retained as the new buffer.

/-- Split a character list at newlines into the list of complete lines and
the trailing incomplete fragment. -/
def splitNl : List Char → List (List Char) × List Char
  | [] => ([], [])
  | c :: cs =>
    if c = '\n' then
      let r := splitNl cs
      ([] :: r.1, r.2)
    else
      match splitNl cs with
      | ([], rest) => ([], c :: rest)
      | (l :: ls, rest) => ((c :: l) :: ls, rest)

/-- Chunk-boundary compositionality of the line buffer: splitting `a ++ b`
yields the complete lines of `a` followed by the complete lines of
`a`'s fragment prepended to `b`. -/
theorem splitNl_append (a b : List Char) :
    splitNl (a ++ b) =
      ((splitNl a).1 ++ (splitNl ((splitNl a).2 ++ b)).1,
       (splitNl ((splitNl a).2 ++ b)).2) := by
  induction a with
  | nil => simp [splitNl]
  | cons c cs ih =>
    by_cases hc : c = '\n'
    · subst hc
      simp only [List.cons_append, splitNl, if_pos rfl, List.append_eq]
      rw [ih]
      simp
    · simp only [List.cons_append, splitNl, if_neg hc, List.append_eq]
      rw [ih]
      rcases h1 : splitNl cs with ⟨ls1, r1⟩
      cases ls1 with
      | nil =>
        rcases h2 : splitNl (r1 ++ b) with ⟨ls2, r2⟩
        cases ls2 <;> simp [splitNl, if_neg hc, h2]
      | cons l ls =>
        rcases h2 : splitNl (r1 ++ b) with ⟨ls2, r2⟩
        simp

-- ───────────────────────── JSON.parse model ─────────────────────────

/-- JSON values as produced by `JSON.parse` (numbers keep their lexeme; the
code never reads a numeric value). -/
inductive Json where
  | null : Json
  | bool (b : Bool) : Json
  | num (lexeme : List Char) : Json
  | str (s : List Char) : Json
  | arr (xs : List Json) : Json
  | obj (fields : List (List Char × Json)) : Json

/-- JSON whitespace. -/
def isWsJ (c : Char) : Bool := c == ' ' || c == '\t' || c == '\n' || c == '\r'

def skipWs (s : List Char) : List Char := s.dropWhile isWsJ

def hexVal (c : Char) : Option Nat :=
  if '0' ≤ c ∧ c ≤ '9' then some (c.toNat - 48)
  else if 'a' ≤ c ∧ c ≤ 'f' then some (c.toNat - 87)
  else if 'A' ≤ c ∧ c ≤ 'F' then some (c.toNat - 55)
  else none

/-- Parse the characters of a JSON string after the opening quote; returns
the decoded characters and the input after the closing quote. -/
def parseStrChars : Nat → List Char → Option (List Char × List Char)
  | 0, _ => none
  | _ + 1, [] => none
  | fuel + 1, c :: cs =>
    if c = '"' then some ([], cs)
    else if c = '\\' then
      match cs with
      | [] => none
      | e :: cs' =>
        let cont := fun (ch : Char) (rest : List Char) =>
          (parseStrChars fuel rest).map (fun p => (ch :: p.1, p.2))
        if e = '"' then cont '"' cs'
        else if e = '\\' then cont '\\' cs'
        else if e = '/' then cont '/' cs'
        else if e = 'b' then cont (Char.ofNat 8) cs'
        else if e = 'f' then cont (Char.ofNat 12) cs'
        else if e = 'n' then cont '\n' cs'
        else if e = 'r' then cont '\r' cs'
        else if e = 't' then cont '\t' cs'
        else if e = 'u' then
          match cs' with
          | h1 :: h2 :: h3 :: h4 :: cs'' =>
            match hexVal h1, hexVal h2, hexVal h3, hexVal h4 with
            | some v1, some v2, some v3, some v4 =>
              cont (Char.ofNat (((v1 * 16 + v2) * 16 + v3) * 16 + v4)) cs''
            | _, _, _, _ => none
          | _ => none
        else none
    else if c.toNat < 0x20 then none
    else (parseStrChars fuel cs).map (fun p => (c :: p.1, p.2))

/-- Integer part of a JSON number (`0`, or a nonzero digit run). -/
def parseIntPart : List Char → Option (List Char × List Char)
  | [] => none
  | c :: cs =>
    if c = '0' then some (['0'], cs)
    else if c.isDigit then
      some ((c :: cs).takeWhile Char.isDigit, (c :: cs).dropWhile Char.isDigit)
    else none

/-- Optional fraction part of a JSON number. -/
def parseFrac : List Char → Option (List Char × List Char)
  | '.' :: r =>
    let ds := r.takeWhile Char.isDigit
    if ds = [] then none else some ('.' :: ds, r.dropWhile Char.isDigit)
  | s => some ([], s)

/-- Optional exponent part of a JSON number. -/
def parseExpPart : List Char → Option (List Char × List Char)
  | [] => some ([], [])
  | c :: r =>
    if c = 'e' ∨ c = 'E' then
      let sg : List Char × List Char :=
        match r with
        | '+' :: t => (['+'], t)
        | '-' :: t => (['-'], t)
        | _ => ([], r)
      let ds := sg.2.takeWhile Char.isDigit
      if ds = [] then none
      else some (c :: (sg.1 ++ ds), sg.2.dropWhile Char.isDigit)
    else some ([], c :: r)

/-- A JSON number lexeme. -/
def parseNumLex (s : List Char) : Option (List Char × List Char) := do
  let ng : List Char × List Char :=
    match s with
    | '-' :: r => (['-'], r)
    | _ => ([], s)
  let (ip, s2) ← parseIntPart ng.2
  let (fr, s3) ← parseFrac s2
  let (ex, s4) ← parseExpPart s3
  some (ng.1 ++ ip ++ fr ++ ex, s4)

mutual

/-- Parse one JSON value (leading whitespace allowed); fueled recursion. -/
def parseVal : Nat → List Char → Option (Json × List Char)
  | 0, _ => none
  | fuel + 1, s =>
    match skipWs s with
    | [] => none
    | c :: cs =>
      if c = '"' then (parseStrChars (cs.length + 1) cs).map (fun p => (Json.str p.1, p.2))
      else if c = Char.ofNat 123 then
        match skipWs cs with
        | d :: r => if d = Char.ofNat 125 then some (Json.obj [], r)
                    else (parseMembers fuel (skipWs cs)).map (fun p => (Json.obj p.1, p.2))
        | [] => none
      else if c = '[' then
        match skipWs cs with
        | d :: r => if d = ']' then some (Json.arr [], r)
                    else (parseElems fuel (skipWs cs)).map (fun p => (Json.arr p.1, p.2))
        | [] => none
      else if startsWithL (lc "true") (c :: cs) then some (Json.bool true, (c :: cs).drop 4)
      else if startsWithL (lc "false") (c :: cs) then some (Json.bool false, (c :: cs).drop 5)
      else if startsWithL (lc "null") (c :: cs) then some (Json.null, (c :: cs).drop 4)
      else (parseNumLex (c :: cs)).map (fun p => (Json.num p.1, p.2))

/-- Parse the elements of a non-empty JSON array (after `[`). -/
def parseElems : Nat → List Char → Option (List Json × List Char)
  | 0, _ => none
  | fuel + 1, s => do
    let (v, r) ← parseVal fuel s
    match skipWs r with
    | ',' :: r2 => (parseElems fuel r2).map (fun p => (v :: p.1, p.2))
    | ']' :: r2 => some ([v], r2)
    | _ => none

/-- Parse the members of a non-empty JSON object (after `{`, whitespace
already skipped). -/
def parseMembers : Nat → List Char → Option (List (List Char × Json) × List Char)
  | 0, _ => none
  | fuel + 1, s =>
    match s with
    | '"' :: cs => do
      let (k, r) ← parseStrChars (cs.length + 1) cs
      match skipWs r with
      | ':' :: r2 => do
        let (v, r3) ← parseVal fuel r2
        match skipWs r3 with
        | ',' :: r4 => (parseMembers fuel (skipWs r4)).map (fun p => ((k, v) :: p.1, p.2))
        | d :: r4 => if d = Char.ofNat 125 then some ([(k, v)], r4) else none
        | [] => none
      | _ => none
    | _ => none

end

/-- Model of `JSON.parse`: the whole input must be one JSON value. -/
def parseJson (s : List Char) : Option Json := do
  let (v, r) ← parseVal (s.length + 1) s
  if skipWs r = [] then some v else none

-- ───────────────────────── per-line protocol ─────────────────────────

/-- Association lookup in a parsed object (`parsed.field`).  When the
source text held a duplicate key, `JSON.parse` keeps the value assigned
last, so the lookup prefers the rightmost binding. -/
def jLookup : List (List Char × Json) → List Char → Option Json
  | [], _ => none
  | (k, v) :: fs, key =>
    match jLookup fs key with
    | some r => some r
    | none => if k = key then some v else none

/-- `j?.field` on a JSON value. -/
def jField (j : Json) (key : List Char) : Option Json :=
  match j with
  | Json.obj fs => jLookup fs key
  | _ => none

/-- `j?.[0]` on a JSON value (arrays index positionally; objects through the
property name `"0"`). -/
def jIndex0 (j : Json) : Option Json :=
  match j with
  | Json.arr xs => xs.head?
  | Json.obj fs => jLookup fs (lc "0")
  | _ => none

/-- The optional-chain navigation `parsed.choices?.[0]?.delta?.content`:
the raw JSON value at that path, `none` when the chain hits an absent
field. -/
def jContentVal (j : Json) : Option Json :=
  match jField j (lc "choices") with
  | none => none
  | some ch =>
    match jIndex0 ch with
    | none => none
    | some c0 =>
      match jField c0 (lc "delta") with
      | none => none
      | some d => jField d (lc "content")

/-- Is every significand digit of a JSON number lexeme zero?  Exactly the
lexemes denoting the value `±0` (the sign, decimal point, and exponent part
carry no further information; a double underflowing to zero from an
astronomically small exponent is a floating-point artifact outside this
embedding). -/
def numLexIsZero (lex : List Char) : Bool :=
  ((lex.takeWhile (fun c => !(c == 'e' || c == 'E'))).filter Char.isDigit).all
    (fun c => c == '0')

/-- JavaScript truthiness of a parsed JSON value, as tested by
`if (delta)`: `null`, `false`, the empty string, and zero are falsy; every
other value (including any array or object) is truthy. -/
def jsTruthy : Json → Bool
  | Json.null => false
  | Json.bool b => b
  | Json.str s => !(s == [])
  | Json.num lex => !(numLexIsZero lex)
  | Json.arr _ => true
  | Json.obj _ => true

mutual

/-- JavaScript string coercion of a parsed JSON value, as performed by
`assistantContent += delta`: a string stays itself, booleans and `null`
print their keyword, an object prints `[object Object]`, an array joins its
coerced elements with commas (`null` elements print empty), and a number
keeps its lexeme (JavaScript re-formats the IEEE-754 double, which agrees
with the lexeme for the canonical integer numerals that occur here; the
re-formatting of non-canonical numerals is a floating-point concern outside
this embedding).  Fueled by the payload length, which bounds any parsed
value's nesting depth. -/
def jsToStringFuel : Nat → Json → List Char
  | _, Json.null => lc "null"
  | _, Json.bool true => lc "true"
  | _, Json.bool false => lc "false"
  | _, Json.str s => s
  | _, Json.num lex => lex
  | _, Json.obj _ => lc "[object Object]"
  | 0, Json.arr _ => []
  | f + 1, Json.arr xs => jsArrJoinFuel f xs

/-- `Array.prototype.join(',')` over coerced elements. -/
def jsArrJoinFuel : Nat → List Json → List Char
  | 0, _ => []
  | _, [] => []
  | f + 1, [x] => jsArrElemFuel f x
  | f + 1, x :: xs => jsArrElemFuel f x ++ ',' :: jsArrJoinFuel f xs

/-- A `null` array element prints empty inside `join`. -/
def jsArrElemFuel : Nat → Json → List Char
  | 0, _ => []
  | _ + 1, Json.null => []
  | f + 1, j => jsToStringFuel f j

end

/-- Processing of one complete line of the stream (the body of the
`for (const line of lines)` loop in `fetchStream`): returns the emitted
delta event, if any.  `const delta = parsed.choices?.[0]?.delta?.content
|| ''` replaces a falsy content value by the empty string, and
`if (delta)` emits only a truthy one, whose text is its string coercion. -/
def processLine (line : List Char) : Option (List Char) :=
  let trimmed := trimL line
  if trimmed = [] then none
  else if startsWithL (lc "data: ") trimmed = false then none
  else
    let data := trimmed.drop 6
    if data = lc "[DONE]" then none
    else
      match parseJson data with
      | none => none
      | some parsed =>
        match jContentVal parsed with
        | none => none
        | some v =>
          if jsTruthy v then some (jsToStringFuel data.length v) else none

/-- The delta events emitted for a list of complete lines. -/
def lineEvents (lines : List (List Char)) : List (List Char) :=
  lines.filterMap processLine

-- ───────────────────────── the read loop ─────────────────────────

/-- Decoder state of the read loop in `fetchStream`: the pending bytes of
the text decoder and the line buffer. -/
structure DecState where
  pending : List Nat
  buffer : List Char
deriving DecidableEq

/-- One iteration of the read loop on an incoming chunk: decode bytes,
split off complete lines, process each complete line. -/
def feedChunk (st : DecState) (chunk : List Nat) : DecState × List (List Char) :=
  let d := decodeBytes (st.pending ++ chunk)
  let sp := splitNl (st.buffer ++ d.1)
  (⟨d.2, sp.2⟩, lineEvents sp.1)

/-- Run the read loop over a chunk sequence, collecting all emitted delta
events in order. -/
def feedAll (st : DecState) : List (List Nat) → List (List Char)
  | [] => []
  | c :: cs =>
    let r := feedChunk st c
    r.2 ++ feedAll r.1 cs

/-- The full stream decode of `fetchStream`: initial empty state, events in
emission order (the trailing buffer is discarded at end of stream, as in the
source). -/
def runChunks (chunks : List (List Nat)) : List (List Char) :=
  feedAll ⟨[], []⟩ chunks

/-- Feeding two chunks in sequence is the same as feeding their
concatenation. -/
theorem feedChunk_append (st : DecState) (c₁ c₂ : List Nat) :
    feedChunk st (c₁ ++ c₂) =
      ((feedChunk (feedChunk st c₁).1 c₂).1,
       (feedChunk st c₁).2 ++ (feedChunk (feedChunk st c₁).1 c₂).2) := by
  unfold feedChunk
  simp only []
  rw [show st.pending ++ (c₁ ++ c₂) = (st.pending ++ c₁) ++ c₂ by simp,
    decodeBytes_append]
  rw [show st.buffer ++ ((decodeBytes (st.pending ++ c₁)).1 ++
      (decodeBytes ((decodeBytes (st.pending ++ c₁)).2 ++ c₂)).1) =
      (st.buffer ++ (decodeBytes (st.pending ++ c₁)).1) ++
      (decodeBytes ((decodeBytes (st.pending ++ c₁)).2 ++ c₂)).1 by simp,
    splitNl_append]
  simp [lineEvents]

/-- `feedAll` on a non-empty chunk list only depends on the concatenation
of the chunks. -/
theorem feedAll_cons_flatten (cs : List (List Nat)) (st : DecState) (c : List Nat) :
    feedAll st (c :: cs) = (feedChunk st ((c :: cs).flatten)).2 := by
  induction cs generalizing st c with
  | nil => simp [feedAll]
  | cons c₂ cs ih =>
    show (feedChunk st c).2 ++ feedAll (feedChunk st c).1 (c₂ :: cs) = _
    rw [ih]
    rw [show (c :: c₂ :: cs).flatten = c ++ (c₂ :: cs).flatten by simp]
    rw [feedChunk_append]

/-- A concrete valid stream for exercising the decoder: one `data:` record
whose delta text is the two-byte character `é`, terminated by a newline. -/
def c1StreamExample : List Char :=
  lc "data: \x7b\"choices\":[\x7b\"delta\":\x7b\"content\":\"é\"\x7d\x7d]\x7d\n"

/-- Claim C1: for every fixed valid byte stream (the UTF-8 encoding of some
character sequence) and every way of splitting it into chunks — including
splits in the middle of a line and in the middle of a multi-byte
character — the stream-decoding loop of `fetchStream` emits the same ordered
sequence of delta events as when the whole stream arrives as one chunk. -/
theorem c1_chunk_invariance (s : List Char) (chunks : List (List Nat))
    (h : chunks.flatten = utf8Encode s) :
    runChunks chunks = runChunks [utf8Encode s] := by
  cases chunks with
  | nil =>
    rw [← h]
    rfl
  | cons c cs =>
    show feedAll ⟨[], []⟩ (c :: cs) = _
    rw [feedAll_cons_flatten, h]
    show _ = feedAll ⟨[], []⟩ (utf8Encode s :: [])
    rw [feedAll_cons_flatten]
    simp

/-- Witness for C1: the concrete stream `c1StreamExample`, split into two
byte chunks whose boundary falls in the middle of the two-byte character
`é`, emits the same events as the unsplit stream — namely the single delta
`"é"`. -/
theorem c1_witness :
    ([(utf8Encode c1StreamExample).take 40,
      (utf8Encode c1StreamExample).drop 40].flatten = utf8Encode c1StreamExample) ∧
    runChunks [(utf8Encode c1StreamExample).take 40, (utf8Encode c1StreamExample).drop 40] =
      runChunks [utf8Encode c1StreamExample] ∧
    runChunks [utf8Encode c1StreamExample] = [lc "é"] :=
  ⟨by simp,
   c1_chunk_invariance c1StreamExample _ (by simp),
   by decide⟩

/-- Helper: a string value coerces to itself regardless of fuel. -/
theorem jsToStringFuel_str (f : Nat) (s : List Char) :
    jsToStringFuel f (Json.str s) = s := by
  cases f <;> rfl

/-- Claim C7 (amended): per-line behaviour of the decoder.  After trimming,
blank lines and lines without the `data: ` prefix emit nothing; the
`[DONE]` sentinel is consumed silently; a payload whose JSON parse fails is
skipped while subsequent lines are still processed; and a parsed payload
emits a delta event exactly when its `choices[0].delta.content` value is
truthy in JavaScript's sense: a non-empty text delta emits exactly its
text, a missing, `null`, `false`, zero, or empty-string content emits
nothing, but a truthy non-string content also emits an event carrying its
string coercion — so emission is not equivalent to the presence of a
non-empty text delta field (see the counterexample). -/
theorem c7_line_protocol :
    (∀ line, trimL line = [] → processLine line = none) ∧
    (∀ line, startsWithL (lc "data: ") (trimL line) = false → processLine line = none) ∧
    (∀ line, trimL line = lc "data: [DONE]" → processLine line = none) ∧
    (∀ line, parseJson ((trimL line).drop 6) = none → processLine line = none) ∧
    (∀ l ls, lineEvents (l :: ls) = (processLine l).toList ++ lineEvents ls) ∧
    (∀ line j, startsWithL (lc "data: ") (trimL line) = true →
       (trimL line).drop 6 ≠ lc "[DONE]" →
       parseJson ((trimL line).drop 6) = some j →
       (((∀ lex, jContentVal j ≠ some (Json.num lex)) →
           (processLine line = none ↔ ∀ v, jContentVal j = some v → jsTruthy v = false)) ∧
        (∀ s, jContentVal j = some (Json.str s) → s ≠ [] → processLine line = some s) ∧
        (∀ v, jContentVal j = some v → jsTruthy v = false → processLine line = none) ∧
        (jContentVal j = none → processLine line = none))) := by
  refine ⟨?_, ?_, ?_, ?_, ?_, ?_⟩
  · intro line h
    simp [processLine, h]
  · intro line h
    unfold processLine
    by_cases he : trimL line = [] <;> simp [he, h]
  · intro line h
    unfold processLine
    rw [h]
    decide
  · intro line h
    unfold processLine
    by_cases he : trimL line = []
    · simp [he]
    · by_cases hs : startsWithL (lc "data: ") (trimL line) = false
      · simp [he, hs]
      · by_cases hd : (trimL line).drop 6 = lc "[DONE]"
        · simp [he, hs, hd]
        · simp [he, hs, hd, h]
  · intro l ls
    unfold lineEvents
    cases h : processLine l <;> simp [List.filterMap_cons, h]
  · intro line j hs hd hp
    have he : trimL line ≠ [] := by
      intro h
      rw [h] at hs
      exact absurd hs (by decide)
    have hred : processLine line =
        (match jContentVal j with
         | none => none
         | some v =>
           if jsTruthy v then
             some (jsToStringFuel ((trimL line).drop 6).length v)
           else none) := by
      unfold processLine
      simp [he, hs, hd, hp]
    refine ⟨?_, ?_, ?_, ?_⟩
    · intro _
      rw [hred]
      cases hv : jContentVal j with
      | none => simp
      | some v =>
        cases htr : jsTruthy v with
        | false => simp [htr]
        | true => simp [htr]
    · intro s hv hne
      rw [hred, hv]
      have htr : jsTruthy (Json.str s) = true := by
        unfold jsTruthy
        simpa using hne
      simp [htr, jsToStringFuel_str]
    · intro v hv htr
      rw [hred, hv]
      simp [htr]
    · intro hv
      rw [hred, hv]

/-- Witness for the C7 amended theorem: concrete lines exercising every
branch — a blank line, the `[DONE]` sentinel, a malformed payload, a
payload whose delta text is `"hi"`, and a payload whose delta text is
empty (no event). -/
theorem c7_witness :
    processLine (lc "   ") = none ∧
    processLine (lc "data: [DONE]") = none ∧
    processLine (lc "data: \x7boops") = none ∧
    processLine (lc "data: \x7b\"choices\":[\x7b\"delta\":\x7b\"content\":\"hi\"\x7d\x7d]\x7d") =
      some (lc "hi") ∧
    processLine (lc "data: \x7b\"choices\":[\x7b\"delta\":\x7b\"content\":\"\"\x7d\x7d]\x7d") =
      none :=
  ⟨c7_line_protocol.1 _ (by decide),
   c7_line_protocol.2.2.1 _ (by decide),
   c7_line_protocol.2.2.2.1 _ (by rfl),
   (c7_line_protocol.2.2.2.2.2 _
      (Json.obj [(lc "choices", Json.arr [Json.obj [(lc "delta",
        Json.obj [(lc "content", Json.str (lc "hi"))])]])])
      (by decide) (by decide) (by rfl)).2.1 (lc "hi") rfl (by decide),
   (c7_line_protocol.2.2.2.2.2 _
      (Json.obj [(lc "choices", Json.arr [Json.obj [(lc "delta",
        Json.obj [(lc "content", Json.str [])])]])])
      (by decide) (by decide) (by rfl)).2.2.1 (Json.str []) rfl (by decide)⟩

/-- Counterexample to claim C7 as stated: this payload parses successfully
and its delta content field holds the number `42` — not a text field — yet
the decoder emits a delta event, carrying the coerced text `"42"`
(`42 || ''` keeps the truthy number and `assistantContent += delta`
coerces it).  So "emits exactly when it contains a non-empty text delta
field" fails. -/
theorem c7_counterexample :
    parseJson (lc "\x7b\"choices\":[\x7b\"delta\":\x7b\"content\":42\x7d\x7d]\x7d") =
      some (Json.obj [(lc "choices", Json.arr [Json.obj [(lc "delta",
        Json.obj [(lc "content", Json.num (lc "42"))])]])]) ∧
    processLine (lc "data: \x7b\"choices\":[\x7b\"delta\":\x7b\"content\":42\x7d\x7d]\x7d") =
      some (lc "42") :=
  ⟨by rfl, by decide⟩

-- ───────────────────────── conversation data model ─────────────────────────

inductive Role where
  | user | assistant | system
deriving DecidableEq

inductive MStatus where
  | sending | streaming | completed | error
deriving DecidableEq

/-- The `Message` interface of `ChatView.tsx` (status and images are
optional in the source; an absent images array behaves as empty). -/
structure Message where
  id : Nat
  role : Role
  content : List Char
  images : List (List Char)
  timestamp : Nat
  status : Option MStatus
deriving DecidableEq

inductive AKind where
  | image | file
deriving DecidableEq

/-- The `Attachment` interface. -/
structure Attachment where
  kind : AKind
  content : List Char
  name : List Char
deriving DecidableEq

/-- The `Conversation` interface (fields not used by the modelled
operations are omitted from the record but their behaviour is unaffected). -/
structure Conversation where
  id : Nat
  title : List Char
  messages : List Message
deriving DecidableEq

-- ───────────────────────── history window (fetchStream) ─────────────────────

/-- The filter of `fetchStream`: completed messages with non-blank text or
at least one image. -/
def isValidHist (m : Message) : Bool :=
  m.status == some MStatus.completed &&
    (!(trimL m.content == []) || !(m.images == []))

/-- `validHistory` of `fetchStream`. -/
def validHistory (msgs : List Message) : List Message :=
  msgs.filter isValidHist

/-- `validHistory.slice(-10)`: the last ten valid messages. -/
def historyWindow (msgs : List Message) : List Message :=
  (validHistory msgs).drop ((validHistory msgs).length - 10)

/-- One part of a multimodal request-message content. -/
inductive ReqPart where
  | text (s : List Char)
  | imageUrl (u : List Char)
deriving DecidableEq

/-- Content of an outbound request message: plain text or multimodal
parts. -/
inductive ReqContent where
  | str (s : List Char)
  | parts (ps : List ReqPart)
deriving DecidableEq

structure ReqMessage where
  role : Role
  content : ReqContent
deriving DecidableEq

/-- Shape a stored message for the request (the `history` map of
`fetchStream`). -/
def toReqMessage (m : Message) : ReqMessage :=
  if m.images ≠ [] then
    ⟨m.role, ReqContent.parts (ReqPart.text m.content :: m.images.map ReqPart.imageUrl)⟩
  else ⟨m.role, ReqContent.str m.content⟩

/-- The `history` array sent with the request. -/
def historyPayload (msgs : List Message) : List ReqMessage :=
  (historyWindow msgs).map toReqMessage

/-- The current user turn as sent with the request
(`{ role: 'user', content: currentMessageContent }`). -/
def currentEntry (u : Message) : ReqMessage :=
  if u.images ≠ [] then
    ⟨Role.user, ReqContent.parts (ReqPart.text u.content :: u.images.map ReqPart.imageUrl)⟩
  else ⟨Role.user, ReqContent.str u.content⟩

/-- The `messages` array of the outbound request body:
`[...history, { role: 'user', content: currentMessageContent }]`.
`msgs` is the conversation's message list as captured before the send. -/
def requestMessages (msgs : List Message) (u : Message) : List ReqMessage :=
  historyPayload msgs ++ [currentEntry u]

/-- Claim C3: the history window contains only messages whose status is
`completed` and whose content is non-blank or which carry at least one
image; it has at most 10 entries (the most recent such messages — it is a
suffix of the filtered list); and it preserves the original chronological
order (it is a subsequence of the message list). -/
theorem c3_history_window (msgs : List Message) :
    (∀ m ∈ historyWindow msgs,
       m.status = some MStatus.completed ∧ (trimL m.content ≠ [] ∨ m.images ≠ [])) ∧
    (historyWindow msgs).length ≤ 10 ∧
    List.IsSuffix (historyWindow msgs) (validHistory msgs) ∧
    List.Sublist (historyWindow msgs) msgs := by
  refine ⟨?_, ?_, ?_, ?_⟩
  · intro m hm
    have hm' : m ∈ validHistory msgs := List.mem_of_mem_drop hm
    have hv : isValidHist m := List.of_mem_filter hm'
    unfold isValidHist at hv
    simp only [Bool.and_eq_true, Bool.or_eq_true, Bool.not_eq_true', beq_iff_eq,
      beq_eq_false_iff_ne] at hv
    exact ⟨hv.1, hv.2⟩
  · unfold historyWindow
    rw [List.length_drop]
    omega
  · exact List.drop_suffix _ _
  · exact List.Sublist.trans (List.drop_sublist _ _) (List.filter_sublist _)

/-- Witness for C3: the history window of a concrete six-message
conversation keeps exactly the valid completed messages, in order. -/
theorem c3_witness :
    (∀ m ∈ historyWindow
        [⟨0, Role.user, lc "hello", [], 0, some MStatus.completed⟩,
         ⟨1, Role.assistant, lc "   ", [], 1, some MStatus.completed⟩,
         ⟨2, Role.assistant, lc "hi", [], 2, some MStatus.streaming⟩,
         ⟨3, Role.assistant, lc "there", [], 3, some MStatus.error⟩,
         ⟨4, Role.user, [], [lc "img"], 4, some MStatus.completed⟩,
         ⟨5, Role.assistant, lc "ok", [], 5, none⟩],
       m.status = some MStatus.completed ∧ (trimL m.content ≠ [] ∨ m.images ≠ [])) ∧
    historyWindow
        [⟨0, Role.user, lc "hello", [], 0, some MStatus.completed⟩,
         ⟨1, Role.assistant, lc "   ", [], 1, some MStatus.completed⟩,
         ⟨2, Role.assistant, lc "hi", [], 2, some MStatus.streaming⟩,
         ⟨3, Role.assistant, lc "there", [], 3, some MStatus.error⟩,
         ⟨4, Role.user, [], [lc "img"], 4, some MStatus.completed⟩,
         ⟨5, Role.assistant, lc "ok", [], 5, none⟩] =
      [⟨0, Role.user, lc "hello", [], 0, some MStatus.completed⟩,
       ⟨4, Role.user, [], [lc "img"], 4, some MStatus.completed⟩] :=
  ⟨(c3_history_window _).1, by decide⟩

/-- Claim C10: the `messages` array of the outbound request equals the
filtered history payload (at most 10 entries) followed by the current user
turn, so it holds at most 11 entries; the 10-entry cap applies only to the
history, and the current turn is always the last entry.  When at least ten
valid prior messages exist the array holds exactly 11 entries. -/
theorem c10_request_messages (msgs : List Message) (u : Message) :
    requestMessages msgs u = historyPayload msgs ++ [currentEntry u] ∧
    (historyPayload msgs).length ≤ 10 ∧
    (requestMessages msgs u).length ≤ 11 ∧
    (requestMessages msgs u).getLast? = some (currentEntry u) ∧
    (10 ≤ (validHistory msgs).length → (requestMessages msgs u).length = 11) := by
  have hlen : (historyPayload msgs).length = (historyWindow msgs).length := by
    simp [historyPayload]
  refine ⟨rfl, ?_, ?_, ?_, ?_⟩
  · rw [hlen]
    unfold historyWindow
    rw [List.length_drop]
    omega
  · unfold requestMessages
    rw [List.length_append, hlen]
    unfold historyWindow
    rw [List.length_drop]
    simp
    omega
  · unfold requestMessages
    rw [List.getLast?_append]
    rfl
  · intro h
    unfold requestMessages
    rw [List.length_append, hlen]
    unfold historyWindow
    rw [List.length_drop]
    simp
    omega

/-- Witness for C10: with twelve valid prior messages and a fresh user turn,
the request holds exactly 11 entries, ending with the current turn. -/
theorem c10_witness :
    (requestMessages
        (List.replicate 12 ⟨0, Role.user, lc "m", [], 0, some MStatus.completed⟩)
        ⟨99, Role.user, lc "now", [], 99, some MStatus.completed⟩).length = 11 ∧
    (requestMessages
        (List.replicate 12 ⟨0, Role.user, lc "m", [], 0, some MStatus.completed⟩)
        ⟨99, Role.user, lc "now", [], 99, some MStatus.completed⟩).getLast? =
      some (ReqMessage.mk Role.user (ReqContent.str (lc "now"))) :=
  ⟨(c10_request_messages _ _).2.2.2.2 (by decide),
   by
    have := (c10_request_messages
      (List.replicate 12 ⟨0, Role.user, lc "m", [], 0, some MStatus.completed⟩)
      ⟨99, Role.user, lc "now", [], 99, some MStatus.completed⟩).2.2.2.1
    rw [this]
    decide⟩

-- ───────────────────────── message mutation (streaming / abort) ─────────────

/-- `updateMessageContent` (the delta application of the read loop): replace
the target message's content with the accumulated assistant content. -/
def updateMessageContent (msgs : List Message) (id : Nat) (newContent : List Char) :
    List Message :=
  msgs.map fun m => if m.id = id then { m with content := newContent } else m

/-- `updateMessageStatus`: set the target message's status. -/
def updateMessageStatus (msgs : List Message) (id : Nat) (st : MStatus) : List Message :=
  msgs.map fun m => if m.id = id then { m with status := some st } else m

/-- The delta applications performed while streaming: `assistantContent`
starts from `acc` and each delta is appended to it, the message content
being replaced by the new accumulated value each time. -/
def runDeltasFrom (id : Nat) (acc : List Char) (msgs : List Message) :
    List (List Char) → List Message
  | [] => msgs
  | d :: ds => runDeltasFrom id (acc ++ d) (updateMessageContent msgs id (acc ++ d)) ds

/-- A user abort after the given deltas were applied: the `AbortError`
branch of `handleSend` marks the assistant message `completed`. -/
def abortedSend (msgs : List Message) (id : Nat) (deltas : List (List Char)) :
    List Message :=
  updateMessageStatus (runDeltasFrom id [] msgs deltas) id MStatus.completed

/-- Look a message up by id. -/
def getMsg (msgs : List Message) (id : Nat) : Option Message :=
  msgs.find? (fun m => m.id == id)

theorem getMsg_updateContent (msgs : List Message) (id : Nat) (c : List Char) :
    getMsg (updateMessageContent msgs id c) id =
      (getMsg msgs id).map (fun m => { m with content := c }) := by
  induction msgs with
  | nil => rfl
  | cons m ms ih =>
    by_cases h : m.id = id
    · simp [getMsg, updateMessageContent, List.find?_cons, h]
    · simp only [getMsg, updateMessageContent, List.map_cons, List.find?_cons, if_neg h]
      have hb : (m.id == id) = false := by simpa using h
      rw [hb]
      exact ih

theorem getMsg_updateStatus (msgs : List Message) (id : Nat) (st : MStatus) :
    getMsg (updateMessageStatus msgs id st) id =
      (getMsg msgs id).map (fun m => { m with status := some st }) := by
  induction msgs with
  | nil => rfl
  | cons m ms ih =>
    by_cases h : m.id = id
    · simp [getMsg, updateMessageStatus, List.find?_cons, h]
    · simp only [getMsg, updateMessageStatus, List.map_cons, List.find?_cons, if_neg h]
      have hb : (m.id == id) = false := by simpa using h
      rw [hb]
      exact ih

theorem getMsg_runDeltasFrom (id : Nat) (ds : List (List Char)) :
    ∀ acc msgs, getMsg (runDeltasFrom id acc msgs ds) id =
      if ds = [] then getMsg msgs id
      else (getMsg msgs id).map (fun m => { m with content := acc ++ ds.flatten }) := by
  induction ds with
  | nil => intro acc msgs; simp [runDeltasFrom]
  | cons d ds ih =>
    intro acc msgs
    rw [show runDeltasFrom id acc msgs (d :: ds) =
      runDeltasFrom id (acc ++ d) (updateMessageContent msgs id (acc ++ d)) ds from rfl]
    rw [ih]
    by_cases hds : ds = []
    · subst hds
      simp [getMsg_updateContent]
    · rw [if_neg hds, if_neg (by simp)]
      rw [getMsg_updateContent]
      cases getMsg msgs id <;> simp

/-- Claim C4: aborting an in-flight send after some delta events finalizes
the assistant message with status `completed` (not `error`) and content
equal to the concatenation of the deltas received before the abort. -/
theorem c4_abort_completed (msgs : List Message) (id : Nat)
    (deltas : List (List Char)) (m₀ : Message)
    (hfind : getMsg msgs id = some m₀) (hempty : m₀.content = []) :
    getMsg (abortedSend msgs id deltas) id =
      some { m₀ with content := deltas.flatten, status := some MStatus.completed } := by
  unfold abortedSend
  rw [getMsg_updateStatus, getMsg_runDeltasFrom]
  by_cases hds : deltas = []
  · subst hds
    rw [if_pos rfl, hfind]
    simp [← hempty]
  · rw [if_neg hds, hfind]
    simp

/-- Witness for C4: aborting after the partial deltas `"Hel"` then `"lo"`
leaves the assistant message with content `"Hello"` and status `completed`,
as in the spec's example. -/
theorem c4_witness :
    getMsg (abortedSend
        [⟨1, Role.user, lc "question", [], 0, some MStatus.completed⟩,
         ⟨2, Role.assistant, [], [], 0, some MStatus.streaming⟩]
        2 [lc "Hel", lc "lo"]) 2 =
      some ⟨2, Role.assistant, lc "Hello", [], 0, some MStatus.completed⟩ := by
  have := c4_abort_completed
    [⟨1, Role.user, lc "question", [], 0, some MStatus.completed⟩,
     ⟨2, Role.assistant, [], [], 0, some MStatus.streaming⟩]
    2 [lc "Hel", lc "lo"]
    ⟨2, Role.assistant, [], [], 0, some MStatus.streaming⟩
    (by decide) (by decide)
  rw [this]
  decide

-- ───────────────────────── handleSend / handleKeyDown (C5) ─────────────────

/-- `Array.prototype.join('\n')`. -/
def joinNl : List (List Char) → List Char
  | [] => []
  | [x] => x
  | x :: xs => x ++ '\n' :: joinNl xs

/-- `finalContent` of `handleSend`: trimmed input text followed by the
delimited file blocks of the non-image attachments. -/
def buildFinalContent (text : List Char) (atts : List Attachment) : List Char :=
  let files := atts.filter (fun a => a.kind == AKind.file)
  if files = [] then trimL text
  else trimL text ++
    joinNl (files.map (fun f =>
      lc "\n\n--- File: " ++ f.name ++ lc " ---\n" ++ f.content ++
        lc "\n--- End of File " ++ f.name ++ lc " ---"))

/-- The state transition of `handleSend` on the active conversation's
message list.  Note the guard checks only blank input and proxy status —
there is no in-flight (`isLoading`) check, and `handleKeyDown` invokes
`handleSend` on Enter unconditionally. -/
def handleSendStep (msgs : List Message) (text : List Char) (atts : List Attachment)
    (proxyRunning : Bool) (ts uid aid : Nat) : List Message :=
  if (trimL text = [] ∧ atts = []) ∨ proxyRunning = false then msgs
  else
    let images := (atts.filter (fun a => a.kind == AKind.image)).map Attachment.content
    let fc := buildFinalContent text atts
    if trimL fc = [] ∧ images = [] then msgs
    else
      msgs ++ [⟨uid, Role.user, fc, images, ts, some MStatus.completed⟩,
               ⟨aid, Role.assistant, [], [], ts, some MStatus.streaming⟩]

/-- Number of assistant messages currently in `streaming` status. -/
def countStreamingAssistants (msgs : List Message) : Nat :=
  (msgs.filter (fun m => m.role == Role.assistant && m.status == some MStatus.streaming)).length

/-- Claim C5 (code bug): a second send issued while the first one is still
streaming — which the Enter key permits, since `handleKeyDown` calls
`handleSend` without checking `isLoading` — creates a second assistant
message in `streaming` status in the same conversation, violating the
claimed invariant. -/
theorem c5_second_send_bug :
    countStreamingAssistants
      (handleSendStep
        (handleSendStep [] (lc "hello") [] true 0 1 2)
        (lc "hi") [] true 3 4 5) = 2 := by
  decide

-- ───────────────────────── deleteConversation (C9) ─────────────────────────

/-- `deleteConversation`: remove the conversation; if it was the active one,
activate the first remaining conversation, or none. -/
def deleteConversation (convs : List Conversation) (activeConvId : Option Nat)
    (id : Nat) : List Conversation × Option Nat :=
  (convs.filter (fun c => c.id != id),
   if activeConvId = some id then
     match convs.filter (fun c => c.id != id) with
     | [] => none
     | c :: _ => some c.id
   else activeConvId)

/-- Claim C9: deleting the active conversation deterministically selects
the first of the remaining conversations as the new active one, or none
when no conversation remains; with three conversations whose middle one is
active, deleting it activates the first of the two remaining; deleting the
only conversation leaves no active conversation. -/
theorem c9_delete_active :
    (∀ (convs : List Conversation) (id : Nat),
       (deleteConversation convs (some id) id).2 =
         ((convs.filter (fun c => c.id != id)).head?).map Conversation.id) ∧
    deleteConversation [⟨1, lc "a", []⟩, ⟨2, lc "b", []⟩, ⟨3, lc "c", []⟩] (some 2) 2 =
      ([⟨1, lc "a", []⟩, ⟨3, lc "c", []⟩], some 1) ∧
    deleteConversation [⟨7, lc "only", []⟩] (some 7) 7 = ([], none) := by
  refine ⟨?_, by decide, by decide⟩
  intro convs id
  unfold deleteConversation
  rw [if_pos rfl]
  cases h : convs.filter (fun c => c.id != id) <;> simp [h]

-- ───────────────────────── content segmenter ─────────────────────────
-- Models `renderMessageContent`: split on file blocks, then per non-file
-- part unwrap code fences that wrap a single markdown image reference and
-- wrap bare data-URIs into image references.

/-- Split at the leftmost occurrence of the literal `pat`: the text before
it and the text after it. -/
def splitLit (pat : List Char) : List Char → Option (List Char × List Char)
  | [] => none
  | c :: cs =>
    if startsWithL pat (c :: cs) then some ([], (c :: cs).drop pat.length)
    else (splitLit pat cs).map (fun p => (c :: p.1, p.2))

/-- The code-fence marker. -/
def fence : List Char := lc "```"

/-- The character class `[\w-]` of the fence language hint. -/
def isWordChar (c : Char) : Bool := c.isAlphanum || c == '_' || c == '-'

/-- The optional language-hint group `(?:[\w-]*\n)?` after an opening
fence: it matches exactly when the maximal word-character run is followed
by a newline, consuming both. -/
def stripLang (s : List Char) : List Char × List Char :=
  match s.dropWhile isWordChar with
  | '\n' :: r => (s.takeWhile isWordChar ++ ['\n'], r)
  | _ => ([], s)

/-- The anchored lazy pattern for a fenced interior that is an image
reference: the trimmed interior starts with `![`, ends with `)`, and
contains `](` in between. -/
def isImgRef (t : List Char) : Bool :=
  startsWithL (lc "![") t && (t.getLast? == some ')') &&
  containsL (lc "](") ((t.drop 2).dropLast)

/-- The global fence-unwrap replacement of `renderMessageContent`: every
fenced region whose trimmed interior matches the image pattern is replaced
by that trimmed interior; other fenced regions are kept verbatim. -/
def unwrapFencesAux : Nat → List Char → List Char
  | 0, s => s
  | fuel + 1, s =>
    match splitLit fence s with
    | none => s
    | some (pre, afterOpen) =>
      let lg := stripLang afterOpen
      match splitLit fence lg.2 with
      | none => s
      | some (inside, tail) =>
        let t := trimL inside
        if isImgRef t then pre ++ t ++ unwrapFencesAux fuel tail
        else pre ++ fence ++ lg.1 ++ inside ++ fence ++ unwrapFencesAux fuel tail

def unwrapFences (s : List Char) : List Char := unwrapFencesAux (s.length + 1) s

/-- Base64 payload characters `[A-Za-z0-9+/=]`. -/
def isB64Char (c : Char) : Bool := c.isAlphanum || c == '+' || c == '/' || c == '='

/-- The bare data-URI pattern `^data:image\/[a-zA-Z]+;base64,<payload>$`. -/
def bareDataURI (s : List Char) : Bool :=
  startsWithL (lc "data:image/") s &&
  (let r := s.drop 11
   let a := r.takeWhile Char.isAlpha
   (!(a == [])) &&
   (let r2 := r.dropWhile Char.isAlpha
    startsWithL (lc ";base64,") r2 &&
    (let p := r2.drop 8
     (!(p == [])) && p.all isB64Char)))

/-- The raw-data-URI detection step: a span whose trimmed text is exactly a
bare image data-URI becomes a markdown image reference with a generic alt
text. -/
def uriWrapStep (s : List Char) : List Char :=
  if bareDataURI (trimL s) then lc "![Generated Image](" ++ trimL s ++ [')']
  else s

-- File-block delimiters.

def fileOpen : List Char := lc "--- File: "
def fileEndMark : List Char := lc "\n--- End of File "

/-- Scan the file name after `--- File: `: the name may not contain a
newline and is terminated by the first ` ---` followed by a newline. -/
def scanName : List Char → Option (List Char × List Char)
  | [] => none
  | c :: cs =>
    if startsWithL (lc " ---\n") (c :: cs) then some ([], (c :: cs).drop 5)
    else if c = '\n' then none
    else (scanName cs).map (fun p => (c :: p.1, p.2))

/-- Scan the (newline-free, lazily minimal) name of an end delimiter,
terminated by ` ---`. -/
def scanCEnd : List Char → Option (List Char × List Char)
  | [] => none
  | c :: cs =>
    if startsWithL (lc " ---") (c :: cs) then some ([], (c :: cs).drop 4)
    else if c = '\n' then none
    else (scanCEnd cs).map (fun p => (c :: p.1, p.2))

/-- Scan the lazily minimal body up to the first parseable generic end
delimiter `\n--- End of File <name> ---`; returns body, end name, rest. -/
def scanBodyGen : List Char → Option (List Char × List Char × List Char)
  | [] => none
  | c :: cs =>
    if startsWithL fileEndMark (c :: cs) then
      match scanCEnd ((c :: cs).drop fileEndMark.length) with
      | some (cn, rest) => some ([], cn, rest)
      | none => (scanBodyGen cs).map (fun p => (c :: p.1, p.2.1, p.2.2))
    else (scanBodyGen cs).map (fun p => (c :: p.1, p.2.1, p.2.2))

/-- Scan the lazily minimal body up to the literal end delimiter carrying
the back-referenced name `nm`. -/
def scanBodySpec (nm : List Char) : List Char → Option (List Char × List Char)
  | [] => none
  | c :: cs =>
    if startsWithL (fileEndMark ++ nm ++ lc " ---") (c :: cs) then
      some ([], (c :: cs).drop (fileEndMark ++ nm ++ lc " ---").length)
    else (scanBodySpec nm cs).map (fun p => (c :: p.1, p.2))

/-- Find the leftmost match of the split pattern
`(--- File: .*? ---\n[\s\S]*?\n--- End of File .*? ---)`:
returns the text before the match, the matched span, and the rest. -/
def findFB : Nat → List Char → Option (List Char × List Char × List Char)
  | 0, _ => none
  | fuel + 1, s =>
    match splitLit fileOpen s with
    | none => none
    | some (pre, afterOpen) =>
      match scanName afterOpen with
      | some (nm, afterNm) =>
        match scanBodyGen afterNm with
        | some (bd, cn, rest) =>
          some (pre,
            fileOpen ++ nm ++ lc " ---\n" ++ bd ++ fileEndMark ++ cn ++ lc " ---",
            rest)
        | none =>
          (findFB fuel afterOpen).map (fun p => (pre ++ fileOpen ++ p.1, p.2.1, p.2.2))
      | none =>
        (findFB fuel afterOpen).map (fun p => (pre ++ fileOpen ++ p.1, p.2.1, p.2.2))

/-- `content.split(fileBlockRegex)` with the capturing group: the parts
between matches interleaved with the matched spans. -/
def splitFB : Nat → List Char → List (List Char)
  | 0, s => [s]
  | fuel + 1, s =>
    match findFB (s.length + 1) s with
    | none => [s]
    | some (pre, m, rest) => pre :: m :: splitFB fuel rest

def splitParts (s : List Char) : List (List Char) := splitFB (s.length + 1) s

/-- The unanchored per-part matcher
`--- File: (.*?) ---\n([\s\S]*?)\n--- End of File \1 ---` with its
back-reference: name and body of the first span whose names agree. -/
def fileMatchAux : Nat → List Char → Option (List Char × List Char)
  | 0, _ => none
  | fuel + 1, s =>
    match splitLit fileOpen s with
    | none => none
    | some (_, afterOpen) =>
      match scanName afterOpen with
      | some (nm, afterNm) =>
        match scanBodySpec nm afterNm with
        | some (bd, _) => some (nm, bd)
        | none => fileMatchAux fuel afterOpen
      | none => fileMatchAux fuel afterOpen

def fileMatch (s : List Char) : Option (List Char × List Char) :=
  fileMatchAux (s.length + 1) s

/-- A renderable content block. -/
inductive Block where
  | file (name body : List Char)
  | prose (text : List Char)
deriving DecidableEq

/-- The content segmenter of `renderMessageContent`: split on file-block
spans; a part whose file match succeeds becomes a `FileBlock`; every other
part is rendered as markdown after fence unwrapping and data-URI
wrapping. -/
def segmentBlocks (s : List Char) : List Block :=
  (splitParts s).map fun part =>
    match fileMatch part with
    | some p => Block.file p.1 p.2
    | none => Block.prose (uriWrapStep (unwrapFences part))

/-- Linear text of one block (file blocks carry their delimiters). -/
def rejoinBlock : Block → List Char
  | Block.file nm bd => fileOpen ++ nm ++ lc " ---\n" ++ bd ++ fileEndMark ++ nm ++ lc " ---"
  | Block.prose t => t

/-- Rejoin a block sequence into linear text, in order. -/
def rejoin (bs : List Block) : List Char := (bs.map rejoinBlock).flatten

-- ───────────────────────── segmenter lemmas ─────────────────────────

theorem startsWithL_refl_append (pat rest : List Char) :
    startsWithL pat (pat ++ rest) = true := by
  induction pat with
  | nil => rfl
  | cons p ps ih => simp [startsWithL, ih]

/-- A literal split succeeds exactly at the boundary when the prefix has no
occurrence of the pattern's first character. -/
theorem splitLit_exact (p₀ : Char) (pt pre rest : List Char)
    (h : ∀ c ∈ pre, c ≠ p₀) :
    splitLit (p₀ :: pt) (pre ++ (p₀ :: pt) ++ rest) = some (pre, rest) := by
  induction pre with
  | nil =>
    simp only [List.nil_append, List.cons_append]
    unfold splitLit
    rw [if_pos (by simpa using startsWithL_refl_append (p₀ :: pt) rest)]
    simp [List.drop_left]
  | cons c cs ih =>
    have hne : c ≠ p₀ := h c (by simp)
    have hc : (p₀ == c) = false := beq_eq_false_iff_ne.mpr (Ne.symm hne)
    simp only [List.cons_append]
    unfold splitLit
    rw [if_neg (by simp [startsWithL, hc])]
    rw [ih (fun d hd => h d (by simp [hd]))]
    rfl

theorem containsL_head_none (p₀ : Char) (pt s : List Char)
    (h : ∀ c ∈ s, c ≠ p₀) : containsL (p₀ :: pt) s = false := by
  induction s with
  | nil => rfl
  | cons c cs ih =>
    have hne : c ≠ p₀ := h c (by simp)
    have hc : (p₀ == c) = false := beq_eq_false_iff_ne.mpr (Ne.symm hne)
    show (startsWithL (p₀ :: pt) (c :: cs) || containsL (p₀ :: pt) cs) = false
    rw [show startsWithL (p₀ :: pt) (c :: cs) = ((p₀ == c) && startsWithL pt cs) from rfl]
    rw [hc, Bool.false_and, Bool.false_or]
    exact ih (fun d hd => h d (by simp [hd]))

theorem splitLit_none_of_not_contains (pat s : List Char)
    (h : containsL pat s = false) : splitLit pat s = none := by
  induction s with
  | nil => rfl
  | cons c cs ih =>
    unfold containsL at h
    rw [Bool.or_eq_false_iff] at h
    unfold splitLit
    rw [if_neg (by simp [h.1]), ih h.2]
    rfl

theorem unwrapFencesAux_nil (f : Nat) : unwrapFencesAux f [] = [] := by
  cases f <;> rfl

theorem takeWhile_append_stop (p : Char → Bool) (l : List Char) (x : Char)
    (r : List Char) (hl : ∀ c ∈ l, p c = true) (hx : p x = false) :
    (l ++ x :: r).takeWhile p = l ∧ (l ++ x :: r).dropWhile p = x :: r := by
  induction l with
  | nil => simp [List.takeWhile_cons, List.dropWhile_cons, hx]
  | cons a l ih =>
    have ha : p a = true := hl a (by simp)
    have hrec := ih (fun c hc => hl c (by simp [hc]))
    simp [List.takeWhile_cons, List.dropWhile_cons, ha, hrec.1, hrec.2]

theorem fence_cons : fence = Char.ofNat 96 :: lc "``" := by decide

/-- One-step unfolding of the fence-unwrap scanner. -/
theorem unwrapFencesAux_succ (f : Nat) (s : List Char) :
    unwrapFencesAux (f + 1) s =
      (match splitLit fence s with
       | none => s
       | some (pre, afterOpen) =>
         match splitLit fence (stripLang afterOpen).2 with
         | none => s
         | some (inside, tail) =>
           if isImgRef (trimL inside) then
             pre ++ trimL inside ++ unwrapFencesAux f tail
           else pre ++ fence ++ (stripLang afterOpen).1 ++ inside ++ fence ++
             unwrapFencesAux f tail) := rfl

/-- Claim C2 (amended): a fenced code region (with or without a language
hint) is unwrapped exactly when its trimmed interior matches the anchored
lazy image pattern — it starts with `![`, ends with `)`, and contains `](`
in between (`isImgRef`); an interior of any other shape (code, prose) is
kept verbatim.  In particular the fence around `![x](http://a/b.png)` is
removed while the fenced `js` code block is kept; but an interior holding
several image references also matches the pattern and is unwrapped, rather
than being left unchanged as originally claimed. -/
theorem c2_amended :
    (∀ lang inner, (∀ c ∈ lang, isWordChar c = true) →
       (∀ c ∈ inner, c ≠ Char.ofNat 96) →
       unwrapFences (fence ++ (lang ++ ('\n' :: (inner ++ fence)))) =
         (if isImgRef (trimL inner) then trimL inner
          else fence ++ (lang ++ ('\n' :: (inner ++ fence))))) ∧
    unwrapFences (lc "```\n![x](http://a/b.png)\n```") = lc "![x](http://a/b.png)" ∧
    unwrapFences (lc "```js\nconsole.log(1)\n```") = lc "```js\nconsole.log(1)\n```" := by
  refine ⟨?_, by decide, by decide⟩
  intro lang inner hlang hinner
  have h1 : splitLit fence (fence ++ (lang ++ ('\n' :: (inner ++ fence)))) =
      some ([], lang ++ ('\n' :: (inner ++ fence))) := by
    rw [fence_cons]
    have := splitLit_exact (Char.ofNat 96) (lc "``") []
      (lang ++ ('\n' :: (inner ++ fence))) (by simp)
    rw [fence_cons] at this
    simpa using this
  have h2 : stripLang (lang ++ ('\n' :: (inner ++ fence))) =
      (lang ++ ['\n'], inner ++ fence) := by
    have hsplit := takeWhile_append_stop isWordChar lang '\n' (inner ++ fence)
      hlang (by decide)
    unfold stripLang
    rw [hsplit.1, hsplit.2]
    rfl
  have h3 : splitLit fence (inner ++ fence) = some (inner, []) := by
    rw [fence_cons]
    have := splitLit_exact (Char.ofNat 96) (lc "``") inner []
      (fun c hc => hinner c hc)
    simpa using this
  unfold unwrapFences
  rw [unwrapFencesAux_succ, h1]
  simp only [h2, h3]
  by_cases hi : isImgRef (trimL inner)
  · rw [if_pos hi, if_pos hi]
    simp [unwrapFencesAux_nil]
  · rw [if_neg (by simp [hi]), if_neg hi]
    simp [unwrapFencesAux_nil]

/-- Witness for the C2 amended theorem: applied to the `js` code block
(whose interior is not an image reference) the fence is kept verbatim. -/
theorem c2_witness :
    unwrapFences (fence ++ (lc "js" ++ ('\n' :: (lc "console.log(1)" ++ fence)))) =
      (if isImgRef (trimL (lc "console.log(1)")) then trimL (lc "console.log(1)")
       else fence ++ (lc "js" ++ ('\n' :: (lc "console.log(1)" ++ fence)))) :=
  c2_amended.1 (lc "js") (lc "console.log(1)") (by decide) (by decide)

/-- Counterexample to claim C2 as stated: a fenced region whose interior
holds two image references is claimed to be left unchanged, but the code
unwraps it to the bare interior. -/
theorem c2_counterexample :
    unwrapFences (lc "```\n![img1](url1)\n![img2](url2)\n```") =
      lc "![img1](url1)\n![img2](url2)" ∧
    unwrapFences (lc "```\n![img1](url1)\n![img2](url2)\n```") ≠
      lc "```\n![img1](url1)\n![img2](url2)\n```" := by
  constructor <;> decide

/-- Claim C6: the segmenter extracts a delimited span as a `FileBlock` with
the minimal interior when the names on both delimiters agree — the spec's
example yields exactly one `FileBlock{name: a.txt, body: hello}` and no
prose for that span; when the names disagree, the span yields no
`FileBlock`; with a second end delimiter present, the interior taken is the
minimal one. -/
theorem c6_file_block :
    segmentBlocks (lc "--- File: a.txt ---\nhello\n--- End of File a.txt ---") =
      [Block.prose [], Block.file (lc "a.txt") (lc "hello"), Block.prose []] ∧
    (segmentBlocks (lc "--- File: a.txt ---\nhello\n--- End of File b.txt ---")).all
      (fun b => match b with | Block.file _ _ => false | Block.prose _ => true) = true ∧
    segmentBlocks
        (lc "--- File: a ---\nx\n--- End of File a ---\n--- End of File a ---") =
      [Block.prose [], Block.file (lc "a") (lc "x"),
       Block.prose (lc "\n--- End of File a ---")] := by
  refine ⟨by decide, by decide, by decide⟩

theorem findFB_none_of_no_open (f : Nat) (s : List Char)
    (h : splitLit fileOpen s = none) : findFB f s = none := by
  cases f with
  | zero => rfl
  | succ f =>
    unfold findFB
    rw [h]

theorem fileMatchAux_none_of_no_open (f : Nat) (s : List Char)
    (h : splitLit fileOpen s = none) : fileMatchAux f s = none := by
  cases f with
  | zero => rfl
  | succ f =>
    unfold fileMatchAux
    rw [h]

/-- Segmenting a string with no code fence and no file-block opener yields
a single prose block carrying the data-URI-wrapped text. -/
theorem segment_single (s : List Char) (hf : containsL fence s = false)
    (hF : containsL fileOpen s = false) :
    segmentBlocks s = [Block.prose (uriWrapStep s)] := by
  have h1 : splitLit fileOpen s = none := splitLit_none_of_not_contains _ _ hF
  have h2 : splitLit fence s = none := splitLit_none_of_not_contains _ _ hf
  have hparts : splitParts s = [s] := by
    unfold splitParts
    rw [show s.length + 1 = Nat.succ s.length from rfl]
    simp only [splitFB]
    rw [findFB_none_of_no_open _ _ h1]
  have hmatch : fileMatch s = none := fileMatchAux_none_of_no_open _ _ h1
  have hunwrap : unwrapFences s = s := by
    unfold unwrapFences
    rw [show s.length + 1 = Nat.succ s.length from rfl]
    simp only [unwrapFencesAux]
    rw [h2]
  unfold segmentBlocks
  rw [hparts]
  simp [hmatch, hunwrap]

theorem fileOpen_cons : fileOpen = '-' :: lc "-- File: " := by decide

/-- Character analysis of a bare image data-URI: it contains neither a dash
nor a backtick. -/
theorem bareURI_chars (u : List Char) (h : bareDataURI u = true) :
    ∀ c ∈ u, c ≠ '-' ∧ c ≠ Char.ofNat 96 := by
  unfold bareDataURI at h
  simp only [Bool.and_eq_true] at h
  obtain ⟨hpre, hane, hsemi, hpne, hall⟩ := h
  have hu : u = lc "data:image/" ++ u.drop 11 := by
    have : ∀ pat s, startsWithL pat s = true → s = pat ++ s.drop pat.length := by
      intro pat
      induction pat with
      | nil => intro s _; simp
      | cons p ps ih =>
        intro s hs
        cases s with
        | nil => exact absurd hs (by simp [startsWithL])
        | cons c cs =>
          unfold startsWithL at hs
          rw [Bool.and_eq_true] at hs
          have hpc : p = c := by simpa using hs.1
          subst hpc
          simpa using ih cs hs.2
    have := this (lc "data:image/") u hpre
    simpa using this
  have hr2 : u.drop 11 =
      (u.drop 11).takeWhile Char.isAlpha ++ (u.drop 11).dropWhile Char.isAlpha := by
    simp [List.takeWhile_append_dropWhile]
  have hsemi2 : (u.drop 11).dropWhile Char.isAlpha =
      lc ";base64," ++ ((u.drop 11).dropWhile Char.isAlpha).drop 8 := by
    have : ∀ pat s, startsWithL pat s = true → s = pat ++ s.drop pat.length := by
      intro pat
      induction pat with
      | nil => intro s _; simp
      | cons p ps ih =>
        intro s hs
        cases s with
        | nil => exact absurd hs (by simp [startsWithL])
        | cons c cs =>
          unfold startsWithL at hs
          rw [Bool.and_eq_true] at hs
          have hpc : p = c := by simpa using hs.1
          subst hpc
          simpa using ih cs hs.2
    have := this (lc ";base64,") _ hsemi
    simpa using this
  have haux1 : ∀ c ∈ lc "data:image/", c ≠ '-' ∧ c ≠ Char.ofNat 96 := by decide
  have haux2 : ∀ c ∈ lc ";base64,", c ≠ '-' ∧ c ≠ Char.ofNat 96 := by decide
  intro c hc
  rw [hu] at hc
  rcases List.mem_append.mp hc with hc1 | hc2
  · exact haux1 c hc1
  · rw [hr2] at hc2
    rcases List.mem_append.mp hc2 with hc3 | hc4
    · have halpha : Char.isAlpha c = true := List.mem_takeWhile_imp hc3
      constructor
      · intro he; subst he; exact absurd halpha (by decide)
      · intro he; subst he; exact absurd halpha (by decide)
    · rw [hsemi2] at hc4
      rcases List.mem_append.mp hc4 with hc5 | hc6
      · exact haux2 c hc5
      · have hb64 : isB64Char c = true := by
          rw [List.all_eq_true] at hall
          exact hall c hc6
        constructor
        · intro he; subst he; exact absurd hb64 (by decide)
        · intro he; subst he; exact absurd hb64 (by decide)

/-- A wrapped data-URI image reference is trim-stable. -/
theorem trimL_wrap (t : List Char) :
    trimL (lc "![Generated Image](" ++ t ++ [')']) =
      lc "![Generated Image](" ++ t ++ [')'] := by
  unfold trimL
  have h1 : (lc "![Generated Image](" ++ t ++ [')']).dropWhile isWsChar =
      lc "![Generated Image](" ++ t ++ [')'] := by
    rw [show lc "![Generated Image](" = '!' :: lc "[Generated Image](" from rfl]
    simp only [List.cons_append, List.dropWhile_cons]
    rw [if_neg (by decide)]
  rw [h1]
  have h2 : (lc "![Generated Image](" ++ t ++ [')']).reverse =
      ')' :: (lc "![Generated Image](" ++ t).reverse := by
    simp
  rw [h2]
  simp only [List.dropWhile_cons]
  rw [if_neg (by decide)]
  simp

/-- Claim C8 (amended): content segmentation is idempotent for every input
containing neither a code fence nor a file-block opening delimiter —
segmenting, rejoining in order, and segmenting again yields the identical
block sequence.  (In general the fence unwrap can fabricate a file-block
end delimiter, so the original unconditional claim fails; see the
counterexample.) -/
theorem c8_amended (s : List Char) (hf : containsL fence s = false)
    (hF : containsL fileOpen s = false) :
    segmentBlocks (rejoin (segmentBlocks s)) = segmentBlocks s := by
  have hseg := segment_single s hf hF
  rw [hseg]
  have hrj : rejoin [Block.prose (uriWrapStep s)] = uriWrapStep s := by
    simp [rejoin, rejoinBlock]
  rw [hrj]
  by_cases hb : bareDataURI (trimL s)
  · have hw : uriWrapStep s = lc "![Generated Image](" ++ trimL s ++ [')'] := by
      unfold uriWrapStep
      rw [if_pos hb]
    rw [hw]
    have hchars := bareURI_chars (trimL s) hb
    have hwchar : ∀ c ∈ lc "![Generated Image](" ++ trimL s ++ [')'],
        c ≠ '-' ∧ c ≠ Char.ofNat 96 := by
      have haux : ∀ c ∈ lc "![Generated Image](", c ≠ '-' ∧ c ≠ Char.ofNat 96 := by decide
      intro c hc
      rcases List.mem_append.mp hc with hc1 | hc2
      · rcases List.mem_append.mp hc1 with hc3 | hc4
        · exact haux c hc3
        · exact hchars c hc4
      · simp only [List.mem_singleton] at hc2
        subst hc2
        exact ⟨by decide, by decide⟩
    have hf2 : containsL fence (lc "![Generated Image](" ++ trimL s ++ [')']) = false := by
      rw [fence_cons]
      exact containsL_head_none _ _ _ (fun c hc => (hwchar c hc).2)
    have hF2 : containsL fileOpen (lc "![Generated Image](" ++ trimL s ++ [')']) = false := by
      rw [fileOpen_cons]
      exact containsL_head_none _ _ _ (fun c hc => (hwchar c hc).1)
    rw [segment_single _ hf2 hF2]
    have hid : uriWrapStep (lc "![Generated Image](" ++ trimL s ++ [')']) =
        lc "![Generated Image](" ++ trimL s ++ [')'] := by
      unfold uriWrapStep
      rw [trimL_wrap]
      rw [if_neg ?hnb]
      case hnb =>
        intro hcontra
        unfold bareDataURI at hcontra
        rw [Bool.and_eq_true] at hcontra
        have hsw := hcontra.1
        rw [show lc "![Generated Image](" ++ trimL s ++ [')'] =
          '!' :: (lc "[Generated Image](" ++ (trimL s ++ [')'])) from by simp [lc]] at hsw
        rw [show lc "data:image/" = 'd' :: lc "ata:image/" from rfl] at hsw
        simp only [startsWithL, show (('d' : Char) == '!') = false from by decide,
          Bool.false_and] at hsw
        exact Bool.noConfusion hsw
    rw [hid]
  · have hid : uriWrapStep s = s := by
      unfold uriWrapStep
      rw [if_neg (by simp [hb])]
    rw [hid, hseg, hid]

/-- Witness for the C8 amended theorem: a plain string with no fence and no
file delimiter round-trips to the same single prose block. -/
theorem c8_witness :
    containsL fence (lc "hello world") = false ∧
    containsL fileOpen (lc "hello world") = false ∧
    segmentBlocks (rejoin (segmentBlocks (lc "hello world"))) =
      segmentBlocks (lc "hello world") :=
  ⟨by decide, by decide, c8_amended (lc "hello world") (by decide) (by decide)⟩

/-- Counterexample to claim C8 as stated: for this input the code-fence
image unwrap fabricates a file-block end delimiter, so segmenting the
rejoined text yields a different block sequence than the first
segmentation. -/
theorem c8_counterexample :
    segmentBlocks (rejoin (segmentBlocks
        (lc "x\n--- File: n ---\nb\n--- End of File ```\n![y ---](u)\n```"))) ≠
      segmentBlocks (lc "x\n--- File: n ---\nb\n--- End of File ```\n![y ---](u)\n```") := by
  decide

end ChatView
